import Mathlib

/-
  Verification of the ringmpsc SPSC ring / MPSC channel core
  (src/include/ringmpsc.hpp), as a shallow embedding.

  Modelling conventions:
  - The 64-bit positions (tail_, head_, cached_head_, cached_tail_) are
    modelled as unbounded naturals.  Every load site in the source reads a
    64-bit value, i.e. the counter reduced mod 2^64; accordingly every
    arithmetic expression that the source computes on loaded values is
    modelled through u64sub (64-bit wrapping subtraction) or an explicit
    mod-2^64 reduction.  A fetch_add that would wrap at 2^64 is absorbed by
    the reduction at each load site, so the two representations agree.
  - On the targeted 64-bit platform size_t and uint64_t are both 64 bits
    wide, hence narrow_cast<size_t> of a uint64_t is the identity and the
    size_t subtraction CAPACITY - x has the same wrapping behaviour as the
    64-bit subtraction u64sub.
  - The ring buffer is a total function Nat -> T; the source indexes it with
    pos & MASK where MASK = capacity - 1 and capacity = 2^ring_bits, which
    equals (pos mod 2^64) mod capacity for the loaded 64-bit value pos.
  - Spans are modelled by their contents (for read slices) or by their
    start index / length inside the buffer (for write reservations).
-/

namespace Ringmpsc

/-- 2^64, the modulus of the 64-bit counters. -/
def W : Nat := 2 ^ 64

/-- 64-bit wrapping subtraction of the 64-bit values of a and b
    (source: unsigned subtraction on uint64_t / size_t operands). -/
def u64sub (a b : Nat) : Nat := (a % W + (W - b % W)) % W

theorem W_pos : 0 < W := by decide

/-- On in-range operands (no underflow), 64-bit subtraction is plain
    subtraction. -/
theorem u64sub_eq_sub {a b : Nat} (h1 : b ≤ a) (h2 : a - b < W) :
    u64sub a b = a - b := by
  unfold u64sub
  rw [Nat.mod_add_mod]
  have key : a + (W - b % W) = (a - b) + W * (b / W + 1) := by
    have hd := Nat.div_add_mod b W
    have hbm : b % W < W := Nat.mod_lt _ W_pos
    have : W * (b / W + 1) = W * (b / W) + W := by ring
    omega
  rw [key, Nat.add_mul_mod_self_left]
  exact Nat.mod_eq_of_lt h2

/-- 64-bit subtraction only depends on the operands mod 2^64. -/
theorem u64sub_mod_left (a b : Nat) : u64sub (a % W) b = u64sub a b := by
  unfold u64sub
  rw [Nat.mod_mod_of_dvd _ (dvd_refl W)]

-- ---------------------------------------------------------------------------
-- Backoff (source: class Backoff)
-- ---------------------------------------------------------------------------

/-- State of the adaptive backoff: the single counter step_.
    step_ is a uint32 in the source but never exceeds YIELD_LIMIT + 1 = 11,
    so plain Nat is faithful. -/
structure Backoff where
  step : Nat
  deriving DecidableEq

/-- SPIN_LIMIT = 6. -/
def Backoff.SPIN_LIMIT : Nat := 6

/-- YIELD_LIMIT = 10. -/
def Backoff.YIELD_LIMIT : Nat := 10

/-- A fresh Backoff: step_ = 0. -/
def Backoff.fresh : Backoff := ⟨0⟩

/-- spin(): executes cpu_relax instructions (no state effect), then
    increments step_ if step_ <= SPIN_LIMIT. -/
def Backoff.spin (b : Backoff) : Backoff :=
  if b.step ≤ Backoff.SPIN_LIMIT then ⟨b.step + 1⟩ else b

/-- snooze(): spin() while step_ <= SPIN_LIMIT, otherwise an OS yield plus
    an increment while step_ <= YIELD_LIMIT. -/
def Backoff.snooze (b : Backoff) : Backoff :=
  if b.step ≤ Backoff.SPIN_LIMIT then b.spin
  else if b.step ≤ Backoff.YIELD_LIMIT then ⟨b.step + 1⟩ else b

/-- is_completed(): step_ > YIELD_LIMIT. -/
def Backoff.is_completed (b : Backoff) : Bool := Backoff.YIELD_LIMIT < b.step

/-- reset(): step_ := 0. -/
def Backoff.reset (_ : Backoff) : Backoff := ⟨0⟩

-- ---------------------------------------------------------------------------
-- SPSC ring (source: class Ring<T, config>)
-- ---------------------------------------------------------------------------

/-- Reservation handle: the writable slice is the buffer region
    [idx, idx + len) and pos is the logical tail at reservation time
    (as the loaded 64-bit value). -/
structure Reservation where
  idx : Nat
  len : Nat
  pos : Nat
  deriving DecidableEq

/-- State of one SPSC ring.  The capacity is passed to each operation
    (in the source it is the compile-time constant CAPACITY = 2^ring_bits). -/
structure RingState (T : Type) where
  tail : Nat
  cached_head : Nat
  head : Nat
  cached_tail : Nat
  closed : Bool
  active : Bool
  buffer : Nat → T

/-- A freshly constructed ring: all counters zero, not closed. -/
def initRing {T : Type} (d : T) : RingState T :=
  ⟨0, 0, 0, 0, false, false, fun _ => d⟩

/-- len(): narrow_cast<size_t>(tail - head) on the loaded values. -/
def lenR {T : Type} (s : RingState T) : Nat := u64sub s.tail s.head

/-- is_empty(): tail == head on the loaded 64-bit values. -/
def is_empty {T : Type} (s : RingState T) : Bool := s.tail % W == s.head % W

/-- is_full(): len() >= CAPACITY. -/
def is_full {T : Type} (cap : Nat) (s : RingState T) : Bool := cap ≤ lenR s

/-- is_closed(): acquire load of closed_. -/
def is_closed {T : Type} (s : RingState T) : Bool := s.closed

/-- make_reservation(tail, n): idx = tail & MASK,
    contiguous = min(n, CAPACITY - idx), pos = tail. -/
def make_reservation (cap : Nat) (tail n : Nat) : Reservation :=
  let idx := (tail % W) % cap
  { idx := idx, len := min n (cap - idx), pos := tail % W }

/-- reserve(n): guard 1 <= n <= CAPACITY, fast path on cached_head_, one
    refresh of cached_head_ from head_, closed check only on the refresh
    path.  Returns the optional reservation and the state after the call
    (cached_head_ may have been refreshed). -/
def reserve {T : Type} (cap n : Nat) (s : RingState T) :
    Option Reservation × RingState T :=
  if n = 0 ∨ cap < n then (none, s)
  else
    let tail := s.tail
    let space := u64sub cap (u64sub tail s.cached_head)
    if n ≤ space then (some (make_reservation cap tail n), s)
    else
      let s1 := { s with cached_head := s.head }
      let space2 := u64sub cap (u64sub tail s1.cached_head)
      if space2 < n ∨ is_closed s1 then (none, s1)
      else (some (make_reservation cap tail n), s1)

/-- commit(n): tail_.fetch_add(n) with release ordering. -/
def commit {T : Type} (n : Nat) (s : RingState T) : RingState T :=
  { s with tail := s.tail + n }

/-- readable(): avail from cached_tail_, one refresh of cached_tail_ from
    tail_ when zero; on success the contiguous read-only slice starting at
    head & MASK.  Returns the slice contents and the state after the call. -/
def readable {T : Type} (cap : Nat) (s : RingState T) :
    Option (List T) × RingState T :=
  let head := s.head
  let avail0 := u64sub s.cached_tail head
  let res := if avail0 = 0 then (u64sub s.tail head, { s with cached_tail := s.tail })
             else (avail0, s)
  let avail := res.1
  let s1 := res.2
  if avail = 0 then (none, s1)
  else
    let idx := (head % W) % cap
    let contiguous := min avail (cap - idx)
    (some ((List.range contiguous).map (fun i => s1.buffer (idx + i))), s1)

/-- advance(n): head_.store(head_ + n) with release ordering. -/
def advance {T : Type} (n : Nat) (s : RingState T) : RingState T :=
  { s with head := s.head + n }

/-- consume_batch(handler): snapshot head_ and tail_, visit every cell from
    head to tail at pos & MASK in increasing order, then head_.store(tail).
    Returns (count, the list of visited cells in visit order, final state);
    the list stands for the sequence of handler.process calls. -/
def consume_batch {T : Type} (cap : Nat) (s : RingState T) :
    Nat × List T × RingState T :=
  let head := s.head
  let tail := s.tail
  let avail := u64sub tail head
  if avail = 0 then (0, [], s)
  else
    let visited := (List.range avail).map (fun i => s.buffer (((head + i) % W) % cap))
    (avail, visited, { s with head := tail })

/-- Copy of vals into the buffer at [idx, idx + vals.length)
    (source: std::ranges::copy into the reserved slice). -/
def writeSlice {T : Type} (buf : Nat → T) (idx : Nat) (vals : List T) : Nat → T :=
  fun p => if idx ≤ p ∧ p < idx + vals.length then vals.getD (p - idx) (buf p) else buf p

/-- send(items): reserve(items.size()); on failure 0; otherwise copy the
    first slice-length items, commit the slice length, return it. -/
def send {T : Type} (cap : Nat) (items : List T) (s : RingState T) :
    Nat × RingState T :=
  match reserve cap items.length s with
  | (none, s1) => (0, s1)
  | (some r, s1) =>
      let s2 := { s1 with buffer := writeSlice s1.buffer r.idx (items.take r.len) }
      (r.len, commit r.len s2)

/-- recv(out): readable(); on none 0; otherwise copy
    n = min(slice.size, out.size) items and advance(n).  The out span is
    modelled by its capacity k; the copied items are returned as a list. -/
def recv {T : Type} (cap k : Nat) (s : RingState T) :
    Nat × List T × RingState T :=
  match readable cap s with
  | (none, s1) => (0, [], s1)
  | (some slice, s1) =>
      let n := min slice.length k
      (n, slice.take n, advance n s1)

/-- close(): closed_.store(true). -/
def closeRing {T : Type} (s : RingState T) : RingState T :=
  { s with closed := true }

/-- mark_active(): active_.store(true). -/
def mark_active {T : Type} (s : RingState T) : RingState T :=
  { s with active := true }

/-- One step of the snooze counter below the completion bound. -/
theorem snooze_step_of_le {b : Backoff} (h : b.step ≤ Backoff.YIELD_LIMIT) :
    (b.snooze).step = b.step + 1 := by
  simp only [Backoff.snooze, Backoff.spin, Backoff.SPIN_LIMIT, Backoff.YIELD_LIMIT] at h ⊢
  rcases le_or_lt b.step 6 with h6 | h6
  · rw [if_pos h6, if_pos h6]
  · rw [if_neg (by omega), if_pos (by omega)]

/-- reserve_with_backoff(n): loop of reserve / closed check / snooze until
    the Backoff completes.  The third component counts the reserve attempts
    made; it is ghost instrumentation (the source loop body is otherwise
    mirrored verbatim). -/
def rwbGo {T : Type} (cap n : Nat) (b : Backoff) (s : RingState T) (count : Nat) :
    Option Reservation × RingState T × Nat :=
  if h : b.is_completed then (none, s, count)
  else
    match reserve cap n s with
    | (some r, s1) => (some r, s1, count + 1)
    | (none, s1) =>
        if is_closed s1 then (none, s1, count + 1)
        else rwbGo cap n b.snooze s1 (count + 1)
termination_by Backoff.YIELD_LIMIT + 1 - b.step
decreasing_by
  have hb : b.step ≤ Backoff.YIELD_LIMIT := by
    unfold Backoff.is_completed at h
    simpa using h
  rw [snooze_step_of_le hb]
  unfold Backoff.YIELD_LIMIT at *
  omega

/-- reserve_with_backoff(n), dropping the ghost attempt counter. -/
def reserve_with_backoff {T : Type} (cap n : Nat) (s : RingState T) :
    Option Reservation × RingState T :=
  let r := rwbGo cap n Backoff.fresh s 0
  (r.1, r.2.1)

-- ---------------------------------------------------------------------------
-- MPSC channel (source: class Channel<T, config>)
-- ---------------------------------------------------------------------------

/-- Registration errors of Channel::register_producer. -/
inductive RegisterError where
  | TooManyProducers
  | Closed
  deriving DecidableEq

/-- State of a channel: the ring array (a total function, of which indices
    below max_producers are meaningful), the registration counter and the
    closed flag. -/
structure ChannelState (T : Type) where
  rings : Nat → RingState T
  producer_count : Nat
  closed : Bool

/-- A freshly constructed channel over fresh rings. -/
def initChannel {T : Type} (d : T) : ChannelState T :=
  ⟨fun _ => initRing d, 0, false⟩

/-- register_producer(): closed check, fetch_add of producer_count_, bound
    check with compensating fetch_sub, mark_active on the acquired ring.
    A successful registration returns the producer handle as its ring id. -/
def register_producer {T : Type} (maxp : Nat) (c : ChannelState T) :
    Except RegisterError Nat × ChannelState T :=
  if c.closed then (.error .Closed, c)
  else
    let id := c.producer_count
    let c1 := { c with producer_count := c.producer_count + 1 }
    if maxp ≤ id then (.error .TooManyProducers, { c1 with producer_count := c1.producer_count - 1 })
    else (.ok id,
      { c1 with rings := fun j => if j = id then mark_active (c1.rings j) else c1.rings j })

/-- Producer::send through a handle: Ring::send on ring number id. -/
def producerSend {T : Type} (cap : Nat) (id : Nat) (items : List T)
    (c : ChannelState T) : Nat × ChannelState T :=
  let r := send cap items (c.rings id)
  (r.1, { c with rings := fun j => if j = id then r.2 else c.rings j })

/-- Loop body of Channel::recv: sweep the given ring indices in order,
    each iteration re-checking total < out.size() and passing the remaining
    subspan (capacity k - total) to Ring::recv. -/
def chanRecvGo {T : Type} (cap k : Nat) :
    List Nat → Nat → List T → (Nat → RingState T) →
    Nat × List T × (Nat → RingState T)
  | [], total, acc, rings => (total, acc, rings)
  | i :: rest, total, acc, rings =>
      if total < k then
        let r := recv cap (k - total) (rings i)
        chanRecvGo cap k rest (total + r.1) (acc ++ r.2.1)
          (fun j => if j = i then r.2.2 else rings j)
      else (total, acc, rings)

/-- Channel::recv(out): sweep rings [0, producer_count) in index order while
    the out span (capacity k) is not full; returns the total, the items
    written to out in order, and the final state. -/
def chanRecv {T : Type} (cap k : Nat) (c : ChannelState T) :
    Nat × List T × ChannelState T :=
  let r := chanRecvGo cap k (List.range c.producer_count) 0 [] c.rings
  (r.1, r.2.1, { c with rings := r.2.2 })

/-- Channel::close(): set closed_, then close every ring [0, producer_count). -/
def chanClose {T : Type} (c : ChannelState T) : ChannelState T :=
  { c with closed := true,
           rings := fun i => if i < c.producer_count then closeRing (c.rings i) else c.rings i }

-- ---------------------------------------------------------------------------
-- Trace-level definitions
-- ---------------------------------------------------------------------------

/-- One sequential step of the sole producer (send = reserve + copy + commit)
    or of the sole consumer (recv = readable + advance, into an out span of
    capacity k). -/
inductive TraceOp (T : Type) where
  | sendOp (vals : List T)
  | recvOp (k : Nat)

/-- Run a sequential interleaving of producer and consumer operations on one
    ring, extending the history of committed values and of received values. -/
def runTrace {T : Type} (cap : Nat) :
    List (TraceOp T) → RingState T → List T → List T →
    RingState T × List T × List T
  | [], s, committed, received => (s, committed, received)
  | .sendOp vals :: rest, s, committed, received =>
      let r := send cap vals s
      runTrace cap rest r.2 (committed ++ vals.take r.1) received
  | .recvOp k :: rest, s, committed, received =>
      let r := recv cap k s
      runTrace cap rest r.2.2 committed (received ++ r.2.1)

/-- Run a sequence of register_producer calls, collecting the results. -/
def runRegisters {T : Type} (maxp : Nat) :
    Nat → ChannelState T → List (Except RegisterError Nat) × ChannelState T
  | 0, c => ([], c)
  | k + 1, c =>
      let r := register_producer maxp c
      let rest := runRegisters maxp k r.2
      (r.1 :: rest.1, rest.2)

/-- Free space as the producer fast path sees it:
    CAPACITY - (tail - cached_head) in 64-bit arithmetic. -/
def cachedFree {T : Type} (cap : Nat) (s : RingState T) : Nat :=
  u64sub cap (u64sub s.tail s.cached_head)

/-- Free space after refreshing the cache from head:
    CAPACITY - (tail - head) in 64-bit arithmetic. -/
def refreshedFree {T : Type} (cap : Nat) (s : RingState T) : Nat :=
  u64sub cap (u64sub s.tail s.head)

-- ---------------------------------------------------------------------------
-- Theorems
-- ---------------------------------------------------------------------------

theorem spin_step_le {b : Backoff} (h : b.step ≤ 7) : b.spin.step ≤ 7 := by
  unfold Backoff.spin Backoff.SPIN_LIMIT
  split
  · show b.step + 1 ≤ 7
    omega
  · exact h

/-- C9: a fresh Backoff is not completed; it stays not-completed after any
    number of spin calls; exactly YIELD_LIMIT + 1 = 11 snooze calls from the
    fresh state complete it (10 do not); once completed it stays completed
    under spin and snooze; reset restores the not-completed state. -/
theorem backoff_progression :
    Backoff.fresh.is_completed = false ∧
    (∀ k : Nat, (Backoff.spin^[k] Backoff.fresh).is_completed = false) ∧
    (Backoff.snooze^[Backoff.YIELD_LIMIT + 1] Backoff.fresh).is_completed = true ∧
    (Backoff.snooze^[Backoff.YIELD_LIMIT] Backoff.fresh).is_completed = false ∧
    (∀ b : Backoff, b.is_completed = true →
        b.spin.is_completed = true ∧ b.snooze.is_completed = true) ∧
    (∀ b : Backoff, b.reset.is_completed = false) := by
  refine ⟨by decide, ?_, by decide, by decide, ?_, fun _ => rfl⟩
  · intro k
    have hstep : ∀ k : Nat, (Backoff.spin^[k] Backoff.fresh).step ≤ 7 := by
      intro k
      induction k with
      | zero => decide
      | succ k ih => rw [Function.iterate_succ_apply'] ; exact spin_step_le ih
    have := hstep k
    simp only [Backoff.is_completed, Backoff.YIELD_LIMIT, decide_eq_false_iff_not]
    omega
  · intro b hb
    have hb' : Backoff.YIELD_LIMIT < b.step := by
      simpa [Backoff.is_completed] using hb
    unfold Backoff.YIELD_LIMIT at hb'
    constructor
    · unfold Backoff.spin Backoff.SPIN_LIMIT
      rw [if_neg (by omega)]
      exact hb
    · unfold Backoff.snooze Backoff.SPIN_LIMIT Backoff.YIELD_LIMIT
      rw [if_neg (by omega), if_neg (by omega)]
      exact hb

/-- Witness for C9 at the concrete completed state with step 11. -/
theorem backoff_progression_witness :
    (Backoff.spin ⟨11⟩).is_completed = true ∧ (Backoff.snooze ⟨11⟩).is_completed = true :=
  backoff_progression.2.2.2.2.1 ⟨11⟩ (by decide)

/-- C10: for n = 0 or n > capacity, reserve(n) returns none and leaves the
    whole ring state unchanged; consequently send of an empty slice or of a
    slice longer than the capacity returns 0 and leaves the state unchanged. -/
theorem reserve_out_of_range {T : Type} (cap n : Nat) (s : RingState T)
    (h : n = 0 ∨ cap < n) :
    reserve cap n s = (none, s) ∧
    (∀ items : List T, items.length = n → send cap items s = (0, s)) := by
  have hr : reserve cap n s = (none, s) := by
    unfold reserve
    rw [if_pos h]
  exact ⟨hr, fun items hlen => by simp only [send, hlen, hr]⟩

/-- Witness for C10: a zero-length reserve and an empty send on a fresh
    ring of capacity 16. -/
theorem reserve_out_of_range_witness :
    reserve 16 0 (initRing (0 : Nat)) = (none, initRing 0) ∧
    (∀ items : List Nat, items.length = 0 → send 16 items (initRing 0) = (0, initRing 0)) :=
  reserve_out_of_range 16 0 (initRing 0) (Or.inl rfl)

/-- Counterexample for C1: the claim says reserve(n) returns none whenever
    the ring is closed, but the fast path (cached free space sufficient)
    never consults closed_: on a closed fresh ring of capacity 16,
    reserve(1) returns a reservation. -/
theorem reserve_closed_fastpath_cex :
    is_closed (closeRing (initRing (0 : Nat))) = true ∧
    (1 : Nat) ≤ 16 ∧
    (reserve 16 1 (closeRing (initRing (0 : Nat)))).1 = some ⟨0, 1, 0⟩ := by
  decide

/-- C1 (amended): for 1 <= n <= capacity, reserve(n) returns none iff the
    cached free space is below n and, after the single refresh from head,
    the refreshed free space is below n or the ring is closed (the closed
    check happens only on the refresh path); any returned reservation has
    pos = tail, start index tail mod capacity and slice length
    min(n, capacity - tail mod capacity); tail, head, closed and the buffer
    are left unchanged, and cached_head is refreshed to head exactly when
    the fast path fails. -/
theorem reserve_characterization {T : Type} (cap n : Nat) (s : RingState T)
    (h1 : 1 ≤ n) (h2 : n ≤ cap) :
    ((reserve cap n s).1 = none ↔
        (cachedFree cap s < n ∧ (refreshedFree cap s < n ∨ s.closed = true))) ∧
    (∀ r, (reserve cap n s).1 = some r →
        r.pos = s.tail % W ∧ r.idx = (s.tail % W) % cap ∧
        r.len = min n (cap - (s.tail % W) % cap)) ∧
    ((reserve cap n s).2.tail = s.tail ∧ (reserve cap n s).2.head = s.head ∧
      (reserve cap n s).2.closed = s.closed ∧ (reserve cap n s).2.buffer = s.buffer) ∧
    (reserve cap n s).2.cached_head =
      (if n ≤ cachedFree cap s then s.cached_head else s.head) := by
  unfold reserve cachedFree refreshedFree make_reservation is_closed
  rw [if_neg (by omega)]
  by_cases hfast : n ≤ u64sub cap (u64sub s.tail s.cached_head)
  · rw [if_pos hfast]
    refine ⟨⟨fun hx => absurd hx (by simp), fun hx => absurd hx.1 (by omega)⟩,
      ?_, by simp [hfast], by simp [hfast]⟩
    intro r hr
    simp only [Option.some.injEq] at hr
    subst hr
    exact ⟨rfl, rfl, rfl⟩
  · rw [if_neg hfast]
    by_cases hcond : u64sub cap (u64sub s.tail s.head) < n ∨ s.closed = true
    · rw [if_pos (by simpa using hcond)]
      refine ⟨⟨fun _ => ⟨by omega, hcond⟩, fun _ => rfl⟩,
        ?_, by simp [hfast], by simp [hfast]⟩
      intro r hr
      simp at hr
    · rw [if_neg (by simpa using hcond)]
      refine ⟨⟨fun hx => absurd hx (by simp), fun hx => absurd hx.2 (by tauto)⟩,
        ?_, by simp [hfast], by simp [hfast]⟩
      intro r hr
      simp only [Option.some.injEq] at hr
      subst hr
      exact ⟨rfl, rfl, rfl⟩

/-- Witness for C1 at a fresh ring of capacity 16 with n = 1. -/
theorem reserve_characterization_witness :
    (reserve 16 1 (initRing (0 : Nat))).2.tail = (initRing (0 : Nat)).tail :=
  (reserve_characterization 16 1 (initRing 0) (by decide) (by decide)).2.2.1.1

/-- C3 (code bug, failing trace): on a ring of capacity 16, after send [7]
    and a consume_batch (which stores tail into head but leaves cached_tail_
    stale at 0), the ring is empty, yet readable() computes
    avail = cached_tail - head = 0 - 1 in wrapping 64-bit arithmetic and
    returns a slice of 15 stale cells; advance by that slice length (which
    the contract of advance permits) leaves head = 16 > tail = 1, violating
    the claimed invariant head <= tail. -/
theorem consume_batch_stale_cached_tail_bug :
    is_empty ((consume_batch 16 ((send 16 [7] (initRing (0 : Nat))).2)).2.2) = true ∧
    ((readable 16 ((consume_batch 16 ((send 16 [7] (initRing (0 : Nat))).2)).2.2)).1.map
        List.length) = some 15 ∧
    (advance 15
        ((readable 16 ((consume_batch 16 ((send 16 [7] (initRing (0 : Nat))).2)).2.2)).2)).head
      = 16 ∧
    (advance 15
        ((readable 16 ((consume_batch 16 ((send 16 [7] (initRing (0 : Nat))).2)).2.2)).2)).tail
      = 1 := by
  decide

/-- C4: for every ring state satisfying the documented invariant
    head <= tail and tail - head <= capacity, consume_batch visits exactly
    the tail - head cells at positions head, head+1, ..., tail-1 (each at
    index position mod capacity, in increasing order), returns that count,
    stores the snapshotted tail into head, and leaves the ring empty. -/
theorem consume_batch_spec {T : Type} (cap : Nat) (s : RingState T)
    (hc : cap ∣ W) (hcw : cap < W)
    (h1 : s.head ≤ s.tail) (h2 : s.tail - s.head ≤ cap) :
    (consume_batch cap s).1 = s.tail - s.head ∧
    (consume_batch cap s).2.1 =
      (List.range (s.tail - s.head)).map (fun i => s.buffer ((s.head + i) % cap)) ∧
    (consume_batch cap s).2.2.head = s.tail ∧
    (consume_batch cap s).2.2.tail = s.tail ∧
    is_empty (consume_batch cap s).2.2 = true := by
  have havail : u64sub s.tail s.head = s.tail - s.head :=
    u64sub_eq_sub h1 (by omega)
  have hmod : ∀ i : Nat, ((s.head + i) % W) % cap = (s.head + i) % cap :=
    fun i => Nat.mod_mod_of_dvd _ hc
  simp only [consume_batch, havail]
  by_cases hz : s.tail - s.head = 0
  · rw [if_pos hz]
    have hht : s.head = s.tail := by omega
    exact ⟨hz.symm, by simp [hz], hht, rfl, by simp [is_empty, hht]⟩
  · rw [if_neg hz]
    refine ⟨rfl, ?_, rfl, rfl, ?_⟩
    · simp only [hmod]
    · simp [is_empty]

/-- Witness for C4 at a concrete ring of capacity 16 with head = 1, tail = 3. -/
theorem consume_batch_spec_witness :
    is_empty ((consume_batch 16 (⟨3, 0, 1, 0, false, false, fun p => p⟩ : RingState Nat)).2.2)
      = true :=
  (consume_batch_spec 16 ⟨3, 0, 1, 0, false, false, fun p => p⟩
    ⟨2 ^ 60, by norm_num [W]⟩ (by norm_num [W]) (by decide) (by decide)).2.2.2.2

theorem register_closed_eq {T : Type} (maxp : Nat) (c : ChannelState T)
    (h : c.closed = true) :
    register_producer maxp c = (.error .Closed, c) := by
  simp [register_producer, h]

theorem register_full_eq {T : Type} (maxp : Nat) (c : ChannelState T)
    (h : c.closed = false) (h2 : maxp ≤ c.producer_count) :
    register_producer maxp c = (.error .TooManyProducers, c) := by
  simp only [register_producer, h, Bool.false_eq_true, if_false]
  rw [if_pos h2]
  simp
  rw [← h]

theorem register_ok_eq {T : Type} (maxp : Nat) (c : ChannelState T)
    (h : c.closed = false) (h2 : c.producer_count < maxp) :
    register_producer maxp c =
      (.ok c.producer_count,
        { c with producer_count := c.producer_count + 1,
                 rings := fun j => if j = c.producer_count then mark_active (c.rings j)
                          else c.rings j }) := by
  simp only [register_producer, h, Bool.false_eq_true, if_false]
  rw [if_neg (by omega)]

theorem runRegisters_spec {T : Type} (maxp : Nat) :
    ∀ (k : Nat) (c : ChannelState T), c.closed = false →
      (runRegisters maxp k c).1 =
        ((List.range' c.producer_count (min k (maxp - c.producer_count))).map Except.ok) ++
          List.replicate (k - (maxp - c.producer_count))
            (Except.error RegisterError.TooManyProducers) ∧
      (runRegisters maxp k c).2.producer_count =
        c.producer_count + min k (maxp - c.producer_count) := by
  intro k
  induction k with
  | zero => intro c hc ; simp [runRegisters]
  | succ k ih =>
      intro c hc
      by_cases hlt : c.producer_count < maxp
      · have hk : min (k + 1) (maxp - c.producer_count)
            = 1 + min k (maxp - (c.producer_count + 1)) := by omega
        have hrep : k + 1 - (maxp - c.producer_count)
            = k - (maxp - (c.producer_count + 1)) := by omega
        have hok := register_ok_eq maxp c hc hlt
        simp only [runRegisters, hok]
        obtain ⟨ih1, ih2⟩ :=
          ih { c with producer_count := c.producer_count + 1,
                      rings := fun j => if j = c.producer_count then mark_active (c.rings j)
                               else c.rings j } hc
        simp only at ih1 ih2
        constructor
        · rw [ih1, hk, hrep, Nat.add_comm 1, List.range'_succ]
          simp
        · rw [ih2]
          omega
      · have hm : maxp - c.producer_count = 0 := by omega
        simp only [runRegisters, register_full_eq maxp c hc (by omega)]
        obtain ⟨ih1, ih2⟩ := ih c hc
        rw [ih1, ih2]
        simp [hm, List.replicate_succ]

/-- C5: register_producer returns Closed after close() (state untouched);
    at producer_count >= max_producers it returns TooManyProducers with
    producer_count unchanged (the fetch_add is compensated by the
    fetch_sub); every other call returns the handle id equal to the
    previous producer_count, marks ring[id] active and touches no other
    ring; hence from a fresh channel the k-th call (counting from 0, while
    not closed) returns ok k for k < max_producers and TooManyProducers
    afterwards, so ids are strictly increasing from 0 and earlier handles
    (their rings and the bound producer_count) remain valid. -/
theorem register_producer_spec {T : Type} (maxp : Nat) :
    (∀ c : ChannelState T, c.closed = true →
        register_producer maxp c = (.error .Closed, c)) ∧
    (∀ c : ChannelState T, c.closed = false → maxp ≤ c.producer_count →
        register_producer maxp c = (.error .TooManyProducers, c)) ∧
    (∀ c : ChannelState T, c.closed = false → c.producer_count < maxp →
        (register_producer maxp c).1 = .ok c.producer_count ∧
        (register_producer maxp c).2.producer_count = c.producer_count + 1 ∧
        (register_producer maxp c).2.rings c.producer_count
          = mark_active (c.rings c.producer_count) ∧
        (∀ j, j ≠ c.producer_count →
          (register_producer maxp c).2.rings j = c.rings j)) ∧
    (∀ (d : T) (k : Nat),
        (runRegisters maxp k (initChannel d)).1 =
          ((List.range (min k maxp)).map Except.ok) ++
            List.replicate (k - maxp) (Except.error RegisterError.TooManyProducers) ∧
        (runRegisters maxp k (initChannel d)).2.producer_count = min k maxp) := by
  refine ⟨register_closed_eq maxp, register_full_eq maxp, ?_, ?_⟩
  · intro c hc hlt
    rw [register_ok_eq maxp c hc hlt]
    refine ⟨rfl, rfl, by simp, ?_⟩
    intro j hj
    simp [hj]
  · intro d k
    obtain ⟨h1, h2⟩ := runRegisters_spec maxp k (initChannel d) rfl
    constructor
    · rw [h1]
      simp [List.range_eq_range', initChannel]
    · rw [h2]
      simp [initChannel]

/-- Witness for C5: registration on a closed channel returns Closed. -/
theorem register_producer_spec_witness :
    register_producer 16 (chanClose (initChannel (0 : Nat)))
      = (.error .Closed, chanClose (initChannel 0)) :=
  (register_producer_spec 16).1 _ rfl

theorem recv_count_eq_length {T : Type} (cap k : Nat) (s : RingState T) :
    (recv cap k s).1 = (recv cap k s).2.1.length ∧ (recv cap k s).1 ≤ k := by
  unfold recv
  rcases hr : readable cap s with ⟨ro, s1⟩
  cases ro with
  | none => simp
  | some slice =>
      simp only []
      constructor
      · rw [List.length_take]
        omega
      · exact min_le_right _ _

theorem chanRecvGo_delta {T : Type} (cap k : Nat) :
    ∀ (idxs : List Nat) (t : Nat) (acc : List T) (rings : Nat → RingState T),
      ∃ d : List T,
        (chanRecvGo cap k idxs t acc rings).2.1 = acc ++ d ∧
        (chanRecvGo cap k idxs t acc rings).1 = t + d.length ∧
        (t ≤ k → (chanRecvGo cap k idxs t acc rings).1 ≤ k) := by
  intro idxs
  induction idxs with
  | nil => intro t acc rings ; exact ⟨[], by simp [chanRecvGo]⟩
  | cons i rest ih =>
      intro t acc rings
      by_cases ht : t < k
      · obtain ⟨hlen, hle⟩ := recv_count_eq_length cap (k - t) (rings i)
        obtain ⟨d, hd1, hd2, hd3⟩ := ih (t + (recv cap (k - t) (rings i)).1)
          (acc ++ (recv cap (k - t) (rings i)).2.1)
          (fun j => if j = i then (recv cap (k - t) (rings i)).2.2 else rings j)
        refine ⟨(recv cap (k - t) (rings i)).2.1 ++ d, ?_, ?_, ?_⟩
        · simp only [chanRecvGo, if_pos ht]
          rw [hd1, List.append_assoc]
        · simp only [chanRecvGo, if_pos ht]
          rw [hd2, List.length_append, hlen]
          omega
        · intro _
          simp only [chanRecvGo, if_pos ht]
          exact hd3 (by omega)
      · refine ⟨[], ?_, ?_, ?_⟩ <;> simp only [chanRecvGo, if_neg ht]
        · simp
        · simp
        · intro h ; simpa using h

/-- Scenario S4 channel: a fresh default channel (capacity 65536,
    max_producers 16) after two registrations, producer 0 sending [10, 11]
    and producer 1 sending [20, 21]. -/
def s4Channel : ChannelState Nat :=
  (producerSend 65536 1 [20, 21]
    (producerSend 65536 0 [10, 11]
      (register_producer 16 (register_producer 16 (initChannel 0)).2).2).2).2

/-- C6: Channel::recv sweeps rings in index order writing into successive
    subspans of out, so the returned count is the number of items written
    and never exceeds the out capacity; concretely, in scenario S4 (two
    producers, ring 0 sent [10,11], ring 1 sent [20,21]) recv into a
    length-10 buffer returns 4 and writes 10, 11, 20, 21 in that order. -/
theorem chan_recv_spec :
    (∀ (T : Type) (cap k : Nat) (c : ChannelState T),
        (chanRecv cap k c).1 = (chanRecv cap k c).2.1.length ∧
        (chanRecv cap k c).1 ≤ k) ∧
    (chanRecv 65536 10 s4Channel).1 = 4 ∧
    (chanRecv 65536 10 s4Channel).2.1 = [10, 11, 20, 21] := by
  refine ⟨?_, by decide, by decide⟩
  intro T cap k c
  obtain ⟨d, hd1, hd2, hd3⟩ :=
    chanRecvGo_delta cap k (List.range c.producer_count) 0 [] c.rings
  unfold chanRecv
  simp only []
  exact ⟨by rw [hd1, hd2] ; simp, hd3 (Nat.zero_le k)⟩

/-- Counterexample channel for C7: two registered producers over capacity-16
    rings, ring 0 left empty, ring 1 sent [20]. -/
def c7Channel : ChannelState Nat :=
  (producerSend 16 1 [20]
    (register_producer 16 (register_producer 16 (initChannel 0)).2).2).2

/-- Counterexample for C7: ring 0 delivers 0 items, fewer than the 10 slots
    remaining in out, so by the claim no later ring may be visited and the
    total would be 0; the code continues and returns 1 item from ring 1. -/
theorem chan_recv_stop_cex :
    (recv 16 10 (c7Channel.rings 0)).1 = 0 ∧
    (0 : Nat) < 10 ∧
    (chanRecv 16 10 c7Channel).1 = 1 ∧
    (chanRecv 16 10 c7Channel).2.1 = [20] := by
  decide

/-- Modelled from the amended claim: the same sweep as Channel::recv but
    visiting every ring of [0, producer_count) unconditionally (no early
    stop on a full out). -/
def chanRecvAllGo {T : Type} (cap k : Nat) :
    List Nat → Nat → List T → (Nat → RingState T) →
    Nat × List T × (Nat → RingState T)
  | [], total, acc, rings => (total, acc, rings)
  | i :: rest, total, acc, rings =>
      let r := recv cap (k - total) (rings i)
      chanRecvAllGo cap k rest (total + r.1) (acc ++ r.2.1)
        (fun j => if j = i then r.2.2 else rings j)

/-- Modelled from the amended claim: recv without the early stop. -/
def chanRecvAll {T : Type} (cap k : Nat) (c : ChannelState T) :
    Nat × List T × ChannelState T :=
  let r := chanRecvAllGo cap k (List.range c.producer_count) 0 [] c.rings
  (r.1, r.2.1, { c with rings := r.2.2 })

theorem chanRecvGo_all_of_lt {T : Type} (cap k : Nat) :
    ∀ (idxs : List Nat) (t : Nat) (acc : List T) (rings : Nat → RingState T),
      (chanRecvGo cap k idxs t acc rings).1 < k →
      chanRecvGo cap k idxs t acc rings = chanRecvAllGo cap k idxs t acc rings := by
  intro idxs
  induction idxs with
  | nil => intro t acc rings _ ; rfl
  | cons i rest ih =>
      intro t acc rings h
      by_cases ht : t < k
      · simp only [chanRecvGo, if_pos ht] at h ⊢
        simp only [chanRecvAllGo]
        exact ih _ _ _ h
      · simp only [chanRecvGo, if_neg ht] at h
        omega

/-- C7 (amended): Channel::recv does not stop at a ring that returns fewer
    items than the remaining space in out; it visits the next ring whenever
    out is not yet full, stopping early only when out is full.  Hence
    whenever the returned total is below the out capacity the call is
    equal to the unconditional sweep over all rings of [0, producer_count). -/
theorem chan_recv_early_stop_iff_full {T : Type} (cap k : Nat) (c : ChannelState T)
    (h : (chanRecv cap k c).1 < k) :
    chanRecv cap k c = chanRecvAll cap k c := by
  unfold chanRecv chanRecvAll
  simp only []
  unfold chanRecv at h
  simp only [] at h
  rw [chanRecvGo_all_of_lt cap k _ _ _ _ h]

/-- Witness for C7 at the counterexample channel: the total 1 is below the
    out capacity 10 and the call equals the full sweep. -/
theorem chan_recv_early_stop_iff_full_witness :
    chanRecv 16 10 c7Channel = chanRecvAll 16 10 c7Channel :=
  chan_recv_early_stop_iff_full 16 10 c7Channel (by decide)

theorem reserve_snd_closed {T : Type} (cap n : Nat) (x : RingState T) :
    (reserve cap n x).2.closed = x.closed := by
  simp only [reserve]
  split
  · rfl
  · split
    · rfl
    · split <;> rfl

theorem reserve_fail_fix {T : Type} (cap n : Nat) (s : RingState T)
    (h1 : (reserve cap n s).1 = none)
    (h2 : (reserve cap n (reserve cap n s).2).1 = none) :
    reserve cap n (reserve cap n s).2 = (none, (reserve cap n s).2) := by
  by_cases hg : n = 0 ∨ cap < n
  · have e : ∀ x : RingState T, reserve cap n x = (none, x) := by
      intro x
      simp only [reserve]
      rw [if_pos hg]
    simp [e]
  · by_cases hfast : n ≤ u64sub cap (u64sub s.tail s.cached_head)
    · exfalso
      simp only [reserve] at h1
      rw [if_neg hg, if_pos hfast] at h1
      simp at h1
    · have e1 : (reserve cap n s).2 = { s with cached_head := s.head } := by
        simp only [reserve]
        rw [if_neg hg, if_neg hfast]
        split <;> rfl
      rw [e1] at h2 ⊢
      by_cases hf2 : n ≤ u64sub cap (u64sub s.tail s.head)
      · exfalso
        simp only [reserve] at h2
        rw [if_neg hg, if_pos hf2] at h2
        simp at h2
      · simp only [reserve] at h2 ⊢
        rw [if_neg hg, if_neg hf2] at h2 ⊢
        split at h2
        · rename_i hcond
          rw [if_pos hcond]
        · simp at h2

theorem rwbGo_fix {T : Type} (cap n : Nat) (t : RingState T)
    (hfix : reserve cap n t = (none, t)) (hcl : t.closed = false) :
    ∀ (m : Nat) (b : Backoff) (c : Nat),
      Backoff.YIELD_LIMIT + 1 - b.step = m → b.step ≤ Backoff.YIELD_LIMIT + 1 →
      rwbGo cap n b t c = (none, t, c + m) := by
  intro m
  induction m with
  | zero =>
      intro b c hm _
      have hc : b.is_completed = true := by
        simp only [Backoff.is_completed, Backoff.YIELD_LIMIT, decide_eq_true_eq]
        unfold Backoff.YIELD_LIMIT at hm
        omega
      rw [rwbGo, dif_pos hc]
      simp
  | succ m ih =>
      intro b c hm hb
      have hstep : b.step ≤ Backoff.YIELD_LIMIT := by
        unfold Backoff.YIELD_LIMIT at hm ⊢
        omega
      have hnc : ¬ b.is_completed = true := by
        simp only [Backoff.is_completed, Backoff.YIELD_LIMIT, decide_eq_true_eq]
        unfold Backoff.YIELD_LIMIT at hstep
        omega
      rw [rwbGo, dif_neg hnc, hfix]
      simp only [is_closed, hcl, Bool.false_eq_true, if_false]
      rw [ih b.snooze (c + 1)
        (by rw [snooze_step_of_le hstep] ; unfold Backoff.YIELD_LIMIT at hm ⊢ ; omega)
        (by rw [snooze_step_of_le hstep] ; unfold Backoff.YIELD_LIMIT at hstep ⊢ ; omega)]
      have hcc : c + 1 + m = c + (m + 1) := by omega
      rw [hcc]

/-- C8: whenever reserve(n) fails and keeps failing (the post-failure state
    is a reserve fixpoint: one further failing call pins it down, since a
    failed reserve leaves cached_head = head), reserve_with_backoff(n)
    terminates and returns none after at most YIELD_LIMIT + 1 = 11 reserve
    attempts (counted by the ghost third component of rwbGo); and whenever
    an attempt succeeds, reserve_with_backoff returns that reservation. -/
theorem reserve_with_backoff_bounded {T : Type} (cap n : Nat) (s : RingState T)
    (h1 : (reserve cap n s).1 = none)
    (h2 : (reserve cap n (reserve cap n s).2).1 = none) :
    (reserve_with_backoff cap n s).1 = none ∧
    (rwbGo cap n Backoff.fresh s 0).2.2 ≤ Backoff.YIELD_LIMIT + 1 ∧
    (∀ (s' : RingState T) (r : Reservation), (reserve cap n s').1 = some r →
        (reserve_with_backoff cap n s').1 = some r) := by
  have hfix := reserve_fail_fix cap n s h1 h2
  have hps : reserve cap n s = (none, (reserve cap n s).2) := by rw [← h1]
  have hclosed_eq := reserve_snd_closed cap n s
  have hstep0 : rwbGo cap n Backoff.fresh s 0 =
      (if is_closed (reserve cap n s).2 then (none, (reserve cap n s).2, 1)
       else rwbGo cap n Backoff.fresh.snooze (reserve cap n s).2 1) := by
    rw [rwbGo, dif_neg (by decide), hps]
  have hthird : ∀ (s' : RingState T) (r : Reservation), (reserve cap n s').1 = some r →
      (reserve_with_backoff cap n s').1 = some r := by
    intro s' r hr
    have hps' : reserve cap n s' = (some r, (reserve cap n s').2) := by rw [← hr]
    unfold reserve_with_backoff
    rw [rwbGo, dif_neg (by decide), hps']
  by_cases hcl : s.closed = true
  · have hcld : is_closed (reserve cap n s).2 = true := by
      simp [is_closed, hclosed_eq, hcl]
    rw [hcld, if_pos rfl] at hstep0
    refine ⟨?_, ?_, hthird⟩
    · unfold reserve_with_backoff
      rw [hstep0]
    · rw [hstep0]
      show (1 : Nat) ≤ Backoff.YIELD_LIMIT + 1
      decide
  · have hcl' : s.closed = false := by
      cases hx : s.closed
      · rfl
      · exact absurd hx hcl
    have hcld : is_closed (reserve cap n s).2 = false := by
      simp [is_closed, hclosed_eq, hcl']
    rw [hcld] at hstep0
    simp only [Bool.false_eq_true, if_false] at hstep0
    have hrun := rwbGo_fix cap n (reserve cap n s).2 hfix (by rw [hclosed_eq] ; exact hcl')
      (Backoff.YIELD_LIMIT) Backoff.fresh.snooze 1 (by decide) (by decide)
    rw [hrun] at hstep0
    refine ⟨?_, ?_, hthird⟩
    · unfold reserve_with_backoff
      rw [hstep0]
    · rw [hstep0]
      show (1 + Backoff.YIELD_LIMIT : Nat) ≤ Backoff.YIELD_LIMIT + 1
      decide

/-- Witness for C8 at a full ring of capacity 16 (tail - head = 16, cache
    in sync): reserve(1) persistently fails and the backed-off reserve
    returns none. -/
theorem reserve_with_backoff_bounded_witness :
    (reserve_with_backoff 16 1
      (⟨16, 0, 0, 0, false, false, fun _ => (0 : Nat)⟩ : RingState Nat)).1 = none :=
  (reserve_with_backoff_bounded 16 1 ⟨16, 0, 0, 0, false, false, fun _ => 0⟩
    (by decide) (by decide)).1

theorem mod_shift {cap : Nat} (tail j : Nat) (hcap : 0 < cap)
    (hj : tail % cap + j < cap) : (tail + j) % cap = tail % cap + j := by
  conv_lhs => rw [← Nat.div_add_mod tail cap]
  rw [Nat.add_assoc, Nat.mul_add_mod]
  exact Nat.mod_eq_of_lt hj

theorem distinct_residues {cap a b : Nat} (hab : a < b) (hlt : b - a < cap) :
    a % cap ≠ b % cap := by
  intro h
  have hd : cap ∣ b - a := (Nat.modEq_iff_dvd' (le_of_lt hab)).1 h
  have := Nat.le_of_dvd (by omega) hd
  omega

/-- Coupling invariant between one ring state, the history of committed
    values and the history of received values, for traces built from the
    producer-side send and the consumer-side recv only. -/
structure RingInv {T : Type} (cap : Nat) (s : RingState T) (cs rs : List T) : Prop where
  h_ch : s.cached_head ≤ s.head
  h_ht : s.head ≤ s.tail
  h_tc : s.tail ≤ s.head + cap
  h_tch : s.tail ≤ s.cached_head + cap
  h_hct : s.head ≤ s.cached_tail
  h_ctt : s.cached_tail ≤ s.tail
  h_len : cs.length = s.tail
  h_recv : rs = cs.take s.head
  h_buf : ∀ p, s.head ≤ p → p < s.tail → cs[p]? = some (s.buffer (p % cap))

/-- The committed history extends by the copied prefix and the tail
    advances by its length: the coupling invariant is preserved.  The
    post-state is abstracted by its fields so that both reserve paths
    (untouched cache and refreshed cache) share this lemma. -/
theorem RingInv_write_commit {T : Type} {cap : Nat} {s s2 : RingState T}
    {cs rs vals : List T} {L : Nat}
    (hcap : 0 < cap)
    (inv : RingInv cap s cs rs)
    (hL : L = min vals.length (cap - s.tail % cap))
    (h2tail : s2.tail = s.tail + L)
    (h2head : s2.head = s.head)
    (h2ct : s2.cached_tail = s.cached_tail)
    (h2ch1 : s2.cached_head ≤ s.head)
    (h2ch2 : s.tail + L ≤ s2.cached_head + cap)
    (h2buf : s2.buffer = writeSlice s.buffer (s.tail % cap) (vals.take L)) :
    RingInv cap s2 (cs ++ vals.take L) rs := by
  obtain ⟨h_ch, h_ht, h_tc, h_tch, h_hct, h_ctt, h_len, h_recv, h_buf⟩ := inv
  have hmod : s.tail % cap < cap := Nat.mod_lt _ hcap
  have hLn : L ≤ vals.length := by omega
  have htake : (vals.take L).length = L := by
    rw [List.length_take]
    omega
  have hLc : s.tail % cap + L ≤ cap := by omega
  constructor
  · rw [h2head]
    exact h2ch1
  · rw [h2head, h2tail]
    omega
  · rw [h2head, h2tail]
    omega
  · rw [h2tail]
    exact h2ch2
  · rw [h2head, h2ct]
    exact h_hct
  · rw [h2ct, h2tail]
    omega
  · rw [List.length_append, htake, h_len, h2tail]
  · rw [h2head, List.take_append_of_le_length (by omega)]
    exact h_recv
  · intro p hp1 hp2
    rw [h2head] at hp1
    rw [h2tail] at hp2
    rw [h2buf]
    by_cases hpt : p < s.tail
    · rw [List.getElem?_append_left (by omega)]
      rw [h_buf p hp1 hpt]
      have hnot : ¬ (s.tail % cap ≤ p % cap ∧ p % cap < s.tail % cap + (vals.take L).length) := by
        rintro ⟨ha, hb⟩
        rw [htake] at hb
        set j := p % cap - s.tail % cap with hj
        have hjL : j < L := by omega
        have hq : (s.tail + j) % cap = p % cap := by
          rw [mod_shift _ _ hcap (by omega)]
          omega
        have hlt2 : (s.tail + j) - p < cap := by omega
        exact distinct_residues (by omega) hlt2 hq.symm
      rw [writeSlice, if_neg hnot]
    · have hj : p = s.tail + (p - s.tail) := by omega
      set j := p - s.tail with hjdef
      have hjL : j < L := by omega
      have hpmod : p % cap = s.tail % cap + j := by
        rw [hj, mod_shift _ _ hcap (by omega)]
      rw [List.getElem?_append_right (by omega)]
      rw [h_len]
      rw [writeSlice]
      rw [if_pos (by rw [hpmod, htake] ; omega)]
      rw [hpmod]
      have hsub : s.tail % cap + j - s.tail % cap = j := by omega
      rw [hsub]
      have hgd : (vals.take L).getD j (s.buffer (s.tail % cap + j))
          = (vals.take L)[j] := List.getD_eq_getElem _ _ (by rw [htake] ; omega)
      rw [hgd]
      rw [List.getElem?_eq_getElem (by rw [htake] ; omega)]

/-- One producer send preserves the coupling invariant, the committed
    history growing by the prefix actually placed. -/
theorem send_inv {T : Type} {cap : Nat} {s : RingState T} {cs rs vals : List T}
    (hcap : 0 < cap) (hcw : cap < W) (hdvd : cap ∣ W)
    (inv : RingInv cap s cs rs) :
    RingInv cap (send cap vals s).2 (cs ++ vals.take (send cap vals s).1) rs := by
  have h_ch := inv.h_ch
  have h_ht := inv.h_ht
  have h_tc := inv.h_tc
  have h_tch := inv.h_tch
  have hidx : (s.tail % W) % cap = s.tail % cap := Nat.mod_mod_of_dvd _ hdvd
  by_cases hg : vals.length = 0 ∨ cap < vals.length
  · have e : reserve cap vals.length s = (none, s) := by
      simp only [reserve]
      rw [if_pos hg]
    simp only [send, e]
    simpa using inv
  · have hu1 : u64sub s.tail s.cached_head = s.tail - s.cached_head :=
      u64sub_eq_sub (by omega) (by omega)
    have hs1 : u64sub cap (s.tail - s.cached_head) = cap - (s.tail - s.cached_head) :=
      u64sub_eq_sub (by omega) (by omega)
    have hu2 : u64sub s.tail s.head = s.tail - s.head :=
      u64sub_eq_sub (by omega) (by omega)
    have hs2 : u64sub cap (s.tail - s.head) = cap - (s.tail - s.head) :=
      u64sub_eq_sub (by omega) (by omega)
    by_cases hfast : vals.length ≤ cap - (s.tail - s.cached_head)
    · have e : reserve cap vals.length s
          = (some (make_reservation cap s.tail vals.length), s) := by
        simp only [reserve, hu1, hs1]
        rw [if_neg hg, if_pos hfast]
      simp only [send, e, make_reservation, hidx]
      have hch2 : s.tail + min vals.length (cap - s.tail % cap) ≤ s.cached_head + cap := by
        have hm : s.tail % cap < cap := Nat.mod_lt _ hcap
        omega
      exact RingInv_write_commit hcap inv rfl rfl rfl rfl h_ch hch2 rfl
    · by_cases hslow : cap - (s.tail - s.head) < vals.length ∨ s.closed = true
      · have e : reserve cap vals.length s = (none, { s with cached_head := s.head }) := by
          simp only [reserve, hu1, hs1, hu2, hs2, is_closed]
          rw [if_neg hg, if_neg hfast, if_pos hslow]
        simp only [send, e]
        obtain ⟨h1, h2, h3, h4, h5, h6, h7, h8, h9⟩ := inv
        refine ⟨le_refl _, h2, h3, by simpa using h3, h5, h6, by simpa using h7, ?_, ?_⟩
        · simpa using h8
        · simpa using h9
      · have e : reserve cap vals.length s
            = (some (make_reservation cap s.tail vals.length),
               { s with cached_head := s.head }) := by
          simp only [reserve, hu1, hs1, hu2, hs2, is_closed]
          rw [if_neg hg, if_neg hfast, if_neg hslow]
        simp only [send, e, make_reservation, hidx]
        have hns : ¬ (cap - (s.tail - s.head) < vals.length) := fun hx => hslow (Or.inl hx)
        have hch2 : s.tail + min vals.length (cap - s.tail % cap) ≤ s.head + cap := by
          have hm : s.tail % cap < cap := Nat.mod_lt _ hcap
          omega
        exact RingInv_write_commit hcap inv rfl rfl rfl rfl (le_refl _) hch2 rfl

theorem RingInv_refresh_ct {T : Type} {cap : Nat} {s : RingState T} {cs rs : List T}
    (inv : RingInv cap s cs rs) :
    RingInv cap { s with cached_tail := s.tail } cs rs := by
  obtain ⟨h1, h2, h3, h4, h5, h6, h7, h8, h9⟩ := inv
  exact ⟨h1, h2, h3, h4, h2, le_refl _, h7, h8, h9⟩

/-- Reading a contiguous slice below the cached tail and advancing by at
    most its length preserves the coupling invariant, the received history
    growing by exactly the next committed values. -/
theorem RingInv_read_advance {T : Type} {cap : Nat} {s1 : RingState T} {cs rs : List T}
    {k avail n : Nat} {slice : List T}
    (hcap : 0 < cap)
    (inv : RingInv cap s1 cs rs)
    (hav : s1.head + avail ≤ s1.cached_tail)
    (hslice : slice = (List.range (min avail (cap - s1.head % cap))).map
        (fun i => s1.buffer (s1.head % cap + i)))
    (hn : n = min slice.length k) :
    RingInv cap (advance n s1) cs (rs ++ slice.take n) := by
  obtain ⟨h1, h2, h3, h4, h5, h6, h7, h8, h9⟩ := inv
  have hm : s1.head % cap < cap := Nat.mod_lt _ hcap
  have hlen : slice.length = min avail (cap - s1.head % cap) := by
    rw [hslice]
    simp
  have hcont : n ≤ min avail (cap - s1.head % cap) := by omega
  have hhead : s1.head + n ≤ s1.cached_tail := by omega
  have hht : s1.head + n ≤ s1.tail := by omega
  constructor
  · show s1.cached_head ≤ s1.head + n
    omega
  · show s1.head + n ≤ s1.tail
    exact hht
  · show s1.tail ≤ s1.head + n + cap
    omega
  · exact h4
  · show s1.head + n ≤ s1.cached_tail
    exact hhead
  · exact h6
  · exact h7
  · show rs ++ slice.take n = cs.take (s1.head + n)
    rw [List.take_add, ← h8]
    congr 1
    have hl1 : (slice.take n).length = n := by
      rw [List.length_take]
      omega
    have hl2 : ((cs.drop s1.head).take n).length = n := by
      rw [List.length_take, List.length_drop]
      omega
    apply List.ext_getElem (by omega)
    intro i hi1 hi2
    have hin : i < n := by omega
    have hic : s1.head % cap + i < cap := by omega
    have hgoal9 := h9 (s1.head + i) (by omega) (by omega)
    rw [List.getElem?_eq_getElem (by omega)] at hgoal9
    have hcs : cs[s1.head + i] = s1.buffer ((s1.head + i) % cap) := by
      injection hgoal9
    have hmod2 : (s1.head + i) % cap = s1.head % cap + i := mod_shift _ _ hcap hic
    have hil : i < slice.length := by omega
    have hsl : slice[i] = s1.buffer (s1.head % cap + i) := by
      have := hslice
      subst this
      rw [List.getElem_map, List.getElem_range]
    rw [List.getElem_take, List.getElem_take, List.getElem_drop]
    rw [hsl, hcs, hmod2]
  · intro p hp1 hp2
    show cs[p]? = some (s1.buffer (p % cap))
    have hp0 : s1.head ≤ p := by
      have hx : s1.head + n ≤ p := hp1
      omega
    exact h9 p hp0 hp2

/-- One consumer recv preserves the coupling invariant, the received
    history growing by the items copied out. -/
theorem recv_inv {T : Type} {cap : Nat} {s : RingState T} {cs rs : List T} (k : Nat)
    (hcap : 0 < cap) (hcw : cap < W) (hdvd : cap ∣ W)
    (inv : RingInv cap s cs rs) :
    RingInv cap (recv cap k s).2.2 cs (rs ++ (recv cap k s).2.1) := by
  have h2 := inv.h_ht
  have h3 := inv.h_tc
  have h5 := inv.h_hct
  have h6 := inv.h_ctt
  have hu0 : u64sub s.cached_tail s.head = s.cached_tail - s.head :=
    u64sub_eq_sub h5 (by omega)
  have hu1 : u64sub s.tail s.head = s.tail - s.head :=
    u64sub_eq_sub h2 (by omega)
  have hidx : (s.head % W) % cap = s.head % cap := Nat.mod_mod_of_dvd _ hdvd
  by_cases hz : s.cached_tail - s.head = 0
  · by_cases hz2 : s.tail - s.head = 0
    · have e : readable cap s = (none, { s with cached_tail := s.tail }) := by
        simp only [readable, hu0, hu1]
        rw [if_pos hz]
        simp only []
        rw [if_pos hz2]
      simp only [recv, e]
      simpa using RingInv_refresh_ct inv
    · have e : readable cap s =
          (some ((List.range (min (s.tail - s.head) (cap - s.head % cap))).map
              (fun i => s.buffer (s.head % cap + i))),
           { s with cached_tail := s.tail }) := by
        simp only [readable, hu0, hu1, hidx]
        rw [if_pos hz]
        simp only []
        rw [if_neg hz2]
      simp only [recv, e]
      exact RingInv_read_advance hcap (RingInv_refresh_ct inv) (by simp ; omega) rfl rfl
  · have e : readable cap s =
        (some ((List.range (min (s.cached_tail - s.head) (cap - s.head % cap))).map
            (fun i => s.buffer (s.head % cap + i))),
         s) := by
      simp only [readable, hu0, hu1, hidx]
      rw [if_neg hz]
      simp only []
      rw [if_neg hz]
    simp only [recv, e]
    exact RingInv_read_advance hcap inv (by omega) rfl rfl

theorem runTrace_inv {T : Type} (cap : Nat) (hcap : 0 < cap) (hcw : cap < W)
    (hdvd : cap ∣ W) :
    ∀ (ops : List (TraceOp T)) (s : RingState T) (cs rs : List T),
      RingInv cap s cs rs →
      RingInv cap (runTrace cap ops s cs rs).1 (runTrace cap ops s cs rs).2.1
        (runTrace cap ops s cs rs).2.2 := by
  intro ops
  induction ops with
  | nil => intro s cs rs inv ; simpa [runTrace] using inv
  | cons op rest ih =>
      intro s cs rs inv
      cases op with
      | sendOp vals =>
          simp only [runTrace]
          exact ih _ _ _ (send_inv hcap hcw hdvd inv)
      | recvOp k =>
          simp only [runTrace]
          exact ih _ _ _ (recv_inv k hcap hcw hdvd inv)

/-- C2 (FIFO within a ring): over any sequential interleaving of producer
    sends (reserve + copy + commit) and consumer recvs (readable + advance)
    on one ring of capacity 2^bits, the values received are exactly the
    first k committed values in commit order, where k is the number of
    items consumed. -/
theorem fifo_within_ring {T : Type} (bits : Nat) (hb : bits < 64) (d : T)
    (ops : List (TraceOp T)) :
    (runTrace (2 ^ bits) ops (initRing d) [] []).2.2
      = (runTrace (2 ^ bits) ops (initRing d) [] []).2.1.take
          (runTrace (2 ^ bits) ops (initRing d) [] []).2.2.length := by
  have hcap : 0 < 2 ^ bits := Nat.pos_pow_of_pos bits (by decide)
  have hcw : (2 : Nat) ^ bits < W := by
    unfold W
    exact Nat.pow_lt_pow_right (by decide) hb
  have hdvd : (2 : Nat) ^ bits ∣ W := by
    unfold W
    exact pow_dvd_pow 2 (le_of_lt hb)
  have inv0 : RingInv (2 ^ bits) (initRing d) [] [] := by
    refine ⟨?_, ?_, ?_, ?_, ?_, ?_, ?_, ?_, ?_⟩ <;> simp [initRing]
  have hinv := runTrace_inv (2 ^ bits) hcap hcw hdvd ops (initRing d) [] [] inv0
  obtain ⟨-, hht, -, -, -, -, hlen, hrecv, -⟩ := hinv
  rw [hrecv]
  congr 1
  rw [List.length_take]
  omega

/-- Witness for C2: capacity 16 = 2^4, the producer sends [1, 2, 3], the
    consumer receives into an out span of capacity 2. -/
theorem fifo_within_ring_witness :
    (runTrace (2 ^ 4) [TraceOp.sendOp [1, 2, 3], TraceOp.recvOp 2]
        (initRing (0 : Nat)) [] []).2.2
      = (runTrace (2 ^ 4) [TraceOp.sendOp [1, 2, 3], TraceOp.recvOp 2]
          (initRing (0 : Nat)) [] []).2.1.take
          (runTrace (2 ^ 4) [TraceOp.sendOp [1, 2, 3], TraceOp.recvOp 2]
            (initRing (0 : Nat)) [] []).2.2.length :=
  fifo_within_ring 4 (by decide) 0 [TraceOp.sendOp [1, 2, 3], TraceOp.recvOp 2]

end Ringmpsc
